import Mathlib

/-!
Verification of the chunking-and-orchestration core of an audio
transcription pipeline.

The development shallowly embeds the TypeScript source:

* `splitAudioRanges` models the range computation of `splitAudio`
  (audio.ts): the silence-aware segmenter.  Seconds are modelled as
  rationals; the `while` loop becomes fuel-based recursion with a fuel
  bound large enough for the loop to run to completion.
* `truncateContext` models `ASRTranscriber.truncateContext`
  (transcriber.ts), including the JavaScript `slice(-0)` corner case.
* `isHallucination` models the hallucination classifier, with the six
  regular expressions compiled to a small backtracking matcher over
  `List Char` (`matchSeq`), case-insensitive as in the source.
* `transcribeChunkGo` models the retry loop of
  `ASRTranscriber.transcribeChunk`, with the network abstracted as an
  oracle `Nat → AttemptOutcome` giving the outcome of each attempt.
  It returns the result, the list of backoff waits (ms) and the number
  of attempts performed.
* `transcribeModel` models the orchestration of
  `ASRTranscriber.transcribe` for the three context modes, with the
  transcription client abstracted as an oracle
  `ChunkM → List Char → List Char` (chunk, context ↦ returned text).
  Alongside the run result it returns the log of client calls
  (chunk, context) in dispatch order.  Wall-clock fields
  (`totalTime`) are not modelled.
-/

namespace ASRModel

/-! ## Context truncation (transcriber.ts, truncateContext) -/

/-- Model of `truncateContext`: `text.slice(-contextMaxChars)` once the
length exceeds the budget.  JavaScript `slice(-0)` is `slice(0)` and
returns the whole string, hence the `cmc = 0` branch. -/
def truncateContext (cmc : Nat) (text : List Char) : List Char :=
  if text.length ≤ cmc then text
  else if cmc = 0 then text
  else text.drop (text.length - cmc)

/-! ## Segmenter (audio.ts, splitAudio) -/

/-- Midpoint of a silence interval: `(r.start + r.end) / 2`. -/
def midpointOf (r : ℚ × ℚ) : ℚ := (r.1 + r.2) / 2

/-- The `for (const midpoint of silenceMidpoints)` loop: keep overwriting
`bestSplit` with any midpoint in `(currentStart, idealEnd]`, so the final
value is the last such midpoint in list order. -/
def bestSplitFor (mids : List ℚ) (currentStart idealEnd : ℚ) : Option ℚ :=
  mids.foldl
    (fun best m => if currentStart < m ∧ m ≤ idealEnd then some m else best)
    none

/-- One iteration of the `while` loop in `splitAudio` computes this end
for the chunk starting at `currentStart`. -/
def segStepEnd (total maxChunk : ℚ) (mids : List ℚ) (currentStart : ℚ) : ℚ :=
  (bestSplitFor mids currentStart (currentStart + maxChunk)).getD
    (min (currentStart + maxChunk) total)

/-- The `while (currentStart < totalDuration)` loop of `splitAudio`,
restricted to the emitted `(start, end)` ranges.  `fuel` bounds the
number of iterations; `splitFuel` below is always sufficient. -/
def splitRangesGo (total maxChunk : ℚ) (mids : List ℚ) :
    Nat → ℚ → List (ℚ × ℚ)
  | 0, _ => []
  | fuel + 1, currentStart =>
    if currentStart < total then
      let actualEnd := segStepEnd total maxChunk mids currentStart
      (currentStart, actualEnd) :: splitRangesGo total maxChunk mids fuel actualEnd
    else []

/-- Fuel bound for `splitRangesGo`: every iteration either consumes one
midpoint or advances by a full `maxChunk`. -/
def splitFuel (total maxChunk : ℚ) (mids : List ℚ) : Nat :=
  mids.length + (⌈total / maxChunk⌉).toNat + 1

/-- Range computation of `splitAudio`: a single whole-file range when
`totalDuration <= maxChunkDurationSec`, otherwise the silence-aware
walk over the midpoints of the detected silence ranges. -/
def splitAudioRanges (total maxChunk : ℚ) (silenceRanges : List (ℚ × ℚ)) :
    List (ℚ × ℚ) :=
  if total ≤ maxChunk then [(0, total)]
  else
    splitRangesGo total maxChunk (silenceRanges.map midpointOf)
      (splitFuel total maxChunk (silenceRanges.map midpointOf)) 0

/-! ## Errors (errors.ts) and the retry loop (transcriber.ts) -/

/-- Model of the `APIError` class: message, optional status code,
retryable flag, and the `cause` field, which in the source flows either
an `APIError` (`inl`) or the stringified raw thrown value (`inr`). -/
inductive APIErrorM where
  | mk (message : String) (statusCode : Option Nat) (retryable : Bool)
      (cause : Option (APIErrorM ⊕ String))

def APIErrorM.message : APIErrorM → String
  | .mk m _ _ _ => m

def APIErrorM.statusCode : APIErrorM → Option Nat
  | .mk _ s _ _ => s

def APIErrorM.retryable : APIErrorM → Bool
  | .mk _ _ r _ => r

def APIErrorM.cause : APIErrorM → Option (APIErrorM ⊕ String)
  | .mk _ _ _ c => c

/-- JavaScript `String(err)` on an `APIError` (name "APIError"). -/
def APIErrorM.display (e : APIErrorM) : String :=
  "APIError: " ++ e.message

/-- `APIError.fromResponse`: retryable iff `status >= 500 || status === 429`. -/
def APIErrorM.fromResponse (status : Nat) (statusText : String) : APIErrorM :=
  APIErrorM.mk ("API error: " ++ toString status ++ " " ++ statusText)
    (some status) (decide (500 ≤ status) || decide (status = 429)) none

/-- `APIError.timeout`: retryable, no status code. -/
def APIErrorM.timeout (timeoutSec : Nat) : APIErrorM :=
  APIErrorM.mk ("API request timed out after " ++ toString timeoutSec ++ "s")
    none true none

/-- `APIError.maxRetriesExceeded`: non-retryable wrapper whose message
reports the attempt count and whose cause is the last error. -/
def APIErrorM.maxRetriesExceeded (attempts : Nat) (lastError : Option APIErrorM) :
    APIErrorM :=
  let suffix := match lastError with
    | some e => ": " ++ e.display
    | none => ""
  APIErrorM.mk ("ASR API failed after " ++ toString attempts ++ " attempts" ++ suffix)
    none false (lastError.map Sum.inl)

/-- What a single `fetch` attempt of `transcribeChunk` can do, as seen by
the retry loop: succeed with a text, throw an `APIError` built from a
non-ok HTTP response, abort on timeout, or throw some other value. -/
inductive AttemptFailure where
  | httpError (status : Nat) (statusText : String)
  | abortError
  | otherError (s : String)

inductive AttemptOutcome where
  | ok (text : String)
  | fail (f : AttemptFailure)

/-- The `normalizedError` computation in the `catch` block of
`transcribeChunk`. -/
def normalizeError (timeoutSec : Nat) : AttemptFailure → APIErrorM
  | .httpError status statusText => APIErrorM.fromResponse status statusText
  | .abortError => APIErrorM.timeout timeoutSec
  | .otherError s => APIErrorM.mk s none true (some (Sum.inr s))

/-- The `for (let attempt = 0; attempt <= maxRetries; attempt++)` retry
loop of `transcribeChunk`, driven over the list of attempt numbers.
Returns the result, the list of backoff waits performed (milliseconds,
in order) and the number of attempts performed. -/
def transcribeChunkGo (maxRetries timeoutSec : Nat) (env : Nat → AttemptOutcome) :
    List Nat → Except APIErrorM String × List Nat × Nat
  | [] => (Except.ok "", ([], 0))
  | attempt :: rest =>
    match env attempt with
    | AttemptOutcome.ok text => (Except.ok text, ([], 1))
    | AttemptOutcome.fail f =>
      let err := normalizeError timeoutSec f
      if err.retryable = false then
        (Except.error err, ([], 1))
      else if attempt = maxRetries then
        (Except.error (APIErrorM.maxRetriesExceeded (maxRetries + 1) (some err)),
          ([], 1))
      else
        let r := transcribeChunkGo maxRetries timeoutSec env rest
        (r.1, (1000 * (attempt + 1) :: r.2.1, r.2.2 + 1))

/-- `transcribeChunk` as a whole: run attempts `0 .. maxRetries`. -/
def transcribeChunkModel (maxRetries timeoutSec : Nat) (env : Nat → AttemptOutcome) :
    Except APIErrorM String × List Nat × Nat :=
  transcribeChunkGo maxRetries timeoutSec env (List.range (maxRetries + 1))

/-! ## Output sanitizer (transcriber.ts, HALLUCINATION_PATTERNS / isHallucination)

The six JavaScript regexes are all of a simple shape: a start anchor,
case-insensitive literals, literal alternations, optional single
characters, `.+` / `.*`, and one end anchor.  They are compiled to the
`Pat` abstract syntax below and run by a backtracking matcher.
Acceptance (`test`) under leftmost-preference backtracking coincides
with the existential semantics implemented here. -/

/-- One element of a compiled pattern sequence. -/
inductive Pat where
  | lit (s : List Char)
  | alt (alts : List (List Char))
  | opt (c : Char)
  | dotPlus
  | dotStar
  | eos

/-- Case-insensitive character comparison (JavaScript `i` flag). -/
def charIC (a b : Char) : Bool := a.toLower == b.toLower

/-- Case-insensitive literal match at the start of the input. -/
def icStartsWith : List Char → List Char → Bool
  | [], _ => true
  | _ :: _, [] => false
  | a :: as, b :: bs => charIC a b && icStartsWith as bs

/-- Backtracking matcher for a pattern sequence, anchored at the start of
the input (all source patterns begin with `^`); a pattern without a
trailing `eos` accepts any remaining suffix, like an un-anchored regex
end.  `fuel` bounds recursion depth; every step consumes either one
pattern element or one input character, so
`pats.length + input.length + 1` is always enough. -/
def matchSeq : Nat → List Pat → List Char → Bool
  | 0, _, _ => false
  | _ + 1, [], _ => true
  | fuel + 1, Pat.lit s :: ps, input =>
      icStartsWith s input && matchSeq fuel ps (input.drop s.length)
  | fuel + 1, Pat.alt alts :: ps, input =>
      alts.any fun s =>
        icStartsWith s input && matchSeq fuel ps (input.drop s.length)
  | fuel + 1, Pat.opt c :: ps, input =>
      (match input with
       | b :: rest => (charIC c b && matchSeq fuel ps rest) || matchSeq fuel ps input
       | [] => matchSeq fuel ps [])
  | fuel + 1, Pat.dotPlus :: ps, input =>
      (match input with
       | b :: rest => !(b == '\n') && matchSeq fuel (Pat.dotStar :: ps) rest
       | [] => false)
  | fuel + 1, Pat.dotStar :: ps, input =>
      matchSeq fuel ps input ||
      (match input with
       | b :: rest => !(b == '\n') && matchSeq fuel (Pat.dotStar :: ps) rest
       | [] => false)
  | fuel + 1, Pat.eos :: ps, input =>
      input.isEmpty && matchSeq fuel ps input

/-- `pattern.test(input)` for a compiled pattern. -/
def regexTest (ps : List Pat) (input : List Char) : Bool :=
  matchSeq (ps.length + input.length + 1) ps input

/-- The six patterns of `HALLUCINATION_PATTERNS`, in source order.
The inner optional `s?` of `(contains?|is)` is expanded into literal
alternatives, which is acceptance-equivalent. -/
def HALLUCINATION_PATTERNS : List (List Pat) :=
  [ [Pat.lit ("The sound of ".toList), Pat.dotPlus],
    [Pat.lit ("There ".toList), Pat.alt [("is".toList), ("are".toList)],
      Pat.lit (" no ".toList), Pat.dotPlus, Pat.lit (" sound".toList), Pat.opt 's'],
    [Pat.lit ("No ".toList),
      Pat.alt [("speech".toList), ("audio".toList), ("sound".toList), ("voice".toList)]],
    [Pat.lit ("This ".toList),
      Pat.alt [("audio".toList), ("clip".toList), ("segment".toList)],
      Pat.lit (" ".toList),
      Pat.alt [("contains".toList), ("contain".toList), ("is".toList)],
      Pat.lit (" ".toList),
      Pat.alt [("silence".toList), ("silent".toList), ("no".toList)]],
    [Pat.opt '[',
      Pat.alt [("silence".toList), ("no speech".toList), ("inaudible".toList)],
      Pat.opt ']', Pat.eos],
    [Pat.alt [("音频".toList), ("这段音频".toList), ("该音频".toList)],
      Pat.dotStar,
      Pat.alt [("静音".toList), ("无声".toList), ("没有声音".toList), ("无内容".toList)]] ]

/-- JavaScript `text.trim()`: strip whitespace from both ends. -/
def jsTrim (s : List Char) : List Char :=
  ((s.dropWhile Char.isWhitespace).reverse.dropWhile Char.isWhitespace).reverse

/-- Model of `isHallucination`: trim, never flag empty text, otherwise
test the trimmed text against every pattern. -/
def isHallucination (text : List Char) : Bool :=
  let trimmed := jsTrim text
  if trimmed.isEmpty then false
  else HALLUCINATION_PATTERNS.any fun p => regexTest p trimmed

/-! ## Orchestration (transcriber.ts, ASRTranscriber.transcribe)

The transcription client is abstracted as an oracle
`api : ChunkM → List Char → List Char` returning the raw text of a
successful `transcribeChunk` call for a chunk and a context.  The
`results` map is a function `Nat → Option (List Char)`; the model also
records the log of client calls (chunk, context) in dispatch order. -/

/-- Model of `AudioChunk` (audio.ts): the payload bytes are opaque to
the orchestration. -/
structure ChunkM where
  data : List Nat
  startMs : Nat
  endMs : Nat
  index : Nat
  isSilent : Bool
  deriving DecidableEq, Repr

/-- The three values of `ContextMode`. -/
inductive ContextMode where
  | none
  | sliding
  | full_serial
  deriving DecidableEq, Repr

/-- One entry of the final `segments` array (`end` is a Lean keyword,
hence `endS`). -/
structure SegM where
  start : ℚ
  endS : ℚ
  text : List Char
  deriving DecidableEq, Repr

/-- The `stats` record of a `TranscriptionResult`.  The wall-clock
`totalTime` field is not modelled. -/
structure StatsM where
  chunks : Nat
  chunksTranscribed : Nat
  chunksSkippedSilent : Nat
  mode : ContextMode
  concurrency : Nat
  deriving DecidableEq, Repr

/-- A `TranscriptionResult` without the wall-clock field. -/
structure RunResultM where
  text : List Char
  segments : List SegM
  duration : ℚ
  stats : StatsM
  deriving DecidableEq, Repr

/-- `results.set(k, v)` on the map modelled as a function. -/
def mapSet (m : Nat → Option (List Char)) (k : Nat) (v : List Char) :
    Nat → Option (List Char) :=
  fun i => if i = k then some v else m i

/-- The loop presetting every silent chunk's result to the empty string. -/
def presetSilent (chunks : List ChunkM) (m : Nat → Option (List Char)) :
    Nat → Option (List Char) :=
  chunks.foldl (fun acc c => if c.isSilent then mapSet acc c.index [] else acc) m

/-- `transcribeWithLimit` applied to a batch of chunks sharing one fixed
context (the `Promise.all` of the `none` mode and of the parallel phase
of the `sliding` mode): each chunk's raw text is sanitized and recorded
under its index.  The log records each call's (chunk, context). -/
def runBatch (api : ChunkM → List Char → List Char) (ctx : List Char) :
    List ChunkM → (Nat → Option (List Char)) →
    (Nat → Option (List Char)) × List (ChunkM × List Char)
  | [], m => (m, [])
  | c :: rest, m =>
    let t0 := api c ctx
    let t := if isHallucination t0 then [] else t0
    let r := runBatch api ctx rest (mapSet m c.index t)
    (r.1, (c, ctx) :: r.2)

/-- The `full_serial` loop: walk all chunks in order, skip silent ones,
transcribe with the accumulated context, and after each non-empty
sanitized output extend the context and truncate it to the budget. -/
def runFullSerial (cmc : Nat) (api : ChunkM → List Char → List Char) :
    List ChunkM → (Nat → Option (List Char)) → List Char →
    (Nat → Option (List Char)) × List (ChunkM × List Char)
  | [], m, _ => (m, [])
  | c :: rest, m, ctx =>
    if c.isSilent then runFullSerial cmc api rest m ctx
    else
      let t0 := api c ctx
      let t := if isHallucination t0 then [] else t0
      let ctx2 := if t.isEmpty then ctx else truncateContext cmc (ctx ++ t)
      let r := runFullSerial cmc api rest (mapSet m c.index t) ctx2
      (r.1, (c, ctx) :: r.2)

/-- The `sliding` mode: transcribe the first non-silent chunk alone with
empty context, then submit all remaining non-silent chunks with the one
fixed context derived from the sanitized first output. -/
def runSliding (cmc : Nat) (api : ChunkM → List Char → List Char)
    (nonSilent : List ChunkM) (m : Nat → Option (List Char)) :
    (Nat → Option (List Char)) × List (ChunkM × List Char) :=
  match nonSilent with
  | [] => (m, [])
  | first :: remaining =>
    let t0 := api first []
    let t := if isHallucination t0 then [] else t0
    let m1 := mapSet m first.index t
    if remaining.isEmpty then (m1, [(first, [])])
    else
      let ctx := if t.isEmpty then [] else truncateContext cmc t
      let r := runBatch api ctx remaining m1
      (r.1, (first, []) :: r.2)

/-- The mode dispatch of `transcribe`: silent chunks are preset to the
empty string, then the chosen strategy fills the remaining result-map
entries.  Returns the final map and the client-call log. -/
def modeRun (cmc : Nat) (api : ChunkM → List Char → List Char)
    (chunks : List ChunkM) (mode : ContextMode) :
    (Nat → Option (List Char)) × List (ChunkM × List Char) :=
  match mode with
  | ContextMode.none =>
    runBatch api [] (chunks.filter fun c => !c.isSilent)
      (presetSilent chunks (fun _ => Option.none))
  | ContextMode.full_serial =>
    runFullSerial cmc api chunks (presetSilent chunks (fun _ => Option.none)) []
  | ContextMode.sliding =>
    runSliding cmc api (chunks.filter fun c => !c.isSilent)
      (presetSilent chunks (fun _ => Option.none))

/-- One entry of the final `segments` array: the chunk's time range in
seconds, and `results.get(chunk.index) ?? ""`. -/
def segOf (m : Nat → Option (List Char)) (c : ChunkM) : SegM :=
  SegM.mk ((c.startMs : ℚ) / 1000) ((c.endMs : ℚ) / 1000) ((m c.index).getD [])

/-- Model of `ASRTranscriber.transcribe` after the chunks are
materialized: the early empty-chunks return, the silent presets, the
mode dispatch, and the final assembly of segments, text and stats.
Returns the run result together with the call log.
`chunksSkippedSilent` is `chunks.length - nonSilentChunks.length` and
`chunksTranscribed` is `chunks.length - chunksSkippedSilent`, as in the
source. -/
def transcribeModel (cmc : Nat) (api : ChunkM → List Char → List Char)
    (totalDuration : ℚ) (chunks : List ChunkM) (mode : ContextMode)
    (concurrency : Nat) : RunResultM × List (ChunkM × List Char) :=
  if chunks.isEmpty then
    (⟨[], [], totalDuration, ⟨0, 0, 0, mode, 0⟩⟩, [])
  else
    (⟨((chunks.map (segOf (modeRun cmc api chunks mode).1)).map SegM.text).flatten,
      chunks.map (segOf (modeRun cmc api chunks mode).1),
      totalDuration,
      ⟨chunks.length,
        chunks.length -
          (chunks.length - (chunks.filter fun c => !c.isSilent).length),
        chunks.length - (chunks.filter fun c => !c.isSilent).length,
        mode, concurrency⟩⟩,
      (modeRun cmc api chunks mode).2)

/-! ## Lemmas about context truncation -/

theorem truncateContext_of_le {cmc : Nat} {text : List Char}
    (h : text.length ≤ cmc) : truncateContext cmc text = text := by
  unfold truncateContext
  simp [h]

theorem truncateContext_zero (text : List Char) :
    truncateContext 0 text = text := by
  unfold truncateContext
  split
  · rfl
  · simp

theorem truncateContext_of_gt {cmc : Nat} {text : List Char}
    (h : cmc < text.length) (h0 : cmc ≠ 0) :
    truncateContext cmc text = text.drop (text.length - cmc) := by
  unfold truncateContext
  rw [if_neg (by omega), if_neg h0]

theorem truncateContext_length (cmc : Nat) (s : List Char) (h : 1 ≤ cmc) :
    (truncateContext cmc s).length = min s.length cmc := by
  by_cases hle : s.length ≤ cmc
  · rw [truncateContext_of_le hle]
    omega
  · rw [truncateContext_of_gt (by omega) (by omega), List.length_drop]
    omega

/-- Iterated truncation agrees with a single final truncation: appending
to an already-truncated accumulator and truncating again gives the same
string as truncating the whole concatenation once. -/
theorem truncateContext_append (cmc : Nat) (a b : List Char) :
    truncateContext cmc (truncateContext cmc a ++ b) =
      truncateContext cmc (a ++ b) := by
  by_cases ha : a.length ≤ cmc
  · rw [truncateContext_of_le ha]
  · push_neg at ha
    by_cases h0 : cmc = 0
    · subst h0
      rw [truncateContext_zero, truncateContext_zero, truncateContext_zero]
    · rw [truncateContext_of_gt ha h0]
      have hA : (a.drop (a.length - cmc)).length = cmc := by
        rw [List.length_drop]; omega
      rcases Nat.eq_zero_or_pos b.length with hb | hb
      · have hbnil : b = [] := List.length_eq_zero.mp hb
        subst hbnil
        simp only [List.append_nil]
        rw [truncateContext_of_le hA.le, truncateContext_of_gt ha h0]
      · rw [truncateContext_of_gt (by rw [List.length_append, hA]; omega) h0,
          truncateContext_of_gt (by rw [List.length_append]; omega) h0,
          List.drop_append_eq_append_drop, List.drop_append_eq_append_drop,
          List.drop_drop, hA, List.length_append, List.length_append,
          List.length_drop]
        congr 2 <;> omega

/-! ## Claim theorems: context truncation -/

/-- Claim C10 (confirmed): for every string and every context budget
`contextMaxChars >= 1`, `truncateContext` returns a suffix of its input,
the result length is `min (length s) contextMaxChars`, and the function
is idempotent; for `contextMaxChars = 0` the length bound fails, because
JavaScript `slice(-0)` returns the whole string. -/
theorem truncateContext_claim (cmc : Nat) (s : List Char) (h : 1 ≤ cmc) :
    (truncateContext cmc s <:+ s ∧
      (truncateContext cmc s).length = min s.length cmc ∧
      truncateContext cmc (truncateContext cmc s) = truncateContext cmc s) ∧
    (truncateContext 0 [ 'a' ]).length ≠ min [ 'a' ].length 0 := by
  refine ⟨⟨?_, truncateContext_length cmc s h, ?_⟩, ?_⟩
  · by_cases hle : s.length ≤ cmc
    · rw [truncateContext_of_le hle]
    · rw [truncateContext_of_gt (by omega) (by omega)]
      exact List.drop_suffix _ _
  · refine truncateContext_of_le ?_
    rw [truncateContext_length cmc s h]
    omega
  · rw [truncateContext_zero]
    decide

/-- Witness for `truncateContext_claim` at `cmc = 2`, `s = "abc"`. -/
theorem truncateContext_claim_witness :
    (truncateContext 2 ("abc".toList) <:+ ("abc".toList) ∧
      (truncateContext 2 ("abc".toList)).length = min ("abc".toList).length 2 ∧
      truncateContext 2 (truncateContext 2 ("abc".toList)) =
        truncateContext 2 ("abc".toList)) ∧
    (truncateContext 0 [ 'a' ]).length ≠ min [ 'a' ].length 0 :=
  truncateContext_claim 2 ("abc".toList) (by decide)

/-! ## Lemmas about the retry loop -/

/-- If every attempt from `k` through `maxRetries` is a retryable
failure, the remaining loop ends in `maxRetriesExceeded` wrapping the
normalization of the last attempt's failure, waiting
`1000 * (attempt + 1)` ms after each non-final attempt. -/
theorem transcribeChunkGo_all_retryable (maxRetries timeoutSec : Nat)
    (env : Nat → AttemptOutcome) :
    ∀ n k, k + n = maxRetries + 1 → 1 ≤ n →
    (∀ i, k ≤ i → i ≤ maxRetries → ∃ f, env i = AttemptOutcome.fail f ∧
        (normalizeError timeoutSec f).retryable = true) →
    ∃ flast, env maxRetries = AttemptOutcome.fail flast ∧
      transcribeChunkGo maxRetries timeoutSec env (List.range' k n) =
        (Except.error (APIErrorM.maxRetriesExceeded (maxRetries + 1)
            (some (normalizeError timeoutSec flast))),
          ((List.range' k (n - 1)).map (fun a => 1000 * (a + 1)), n)) := by
  intro n
  induction n with
  | zero => omega
  | succ m ih =>
    intro k hk _ hall
    obtain ⟨f, hf, hret⟩ := hall k (le_refl k) (by omega)
    rcases Nat.eq_zero_or_pos m with hm | hm
    · subst hm
      have hkmax : k = maxRetries := by omega
      subst hkmax
      refine ⟨f, hf, ?_⟩
      rw [List.range'_succ]
      simp only [transcribeChunkGo, hf, hret]
      simp
    · have hkmax : k ≠ maxRetries := by omega
      obtain ⟨flast, hflast, hrec⟩ :=
        ih (k + 1) (by omega) (by omega)
          (fun i hi1 hi2 => hall i (by omega) hi2)
      refine ⟨flast, hflast, ?_⟩
      rw [List.range'_succ]
      simp only [transcribeChunkGo, hf, hret]
      rw [if_neg (by simp [hret]), if_neg hkmax, hrec]
      rw [show List.range' k (m + 1 - 1) = k :: List.range' (k + 1) (m - 1) by
        rw [show m + 1 - 1 = (m - 1) + 1 by omega, List.range'_succ]]
      simp only [List.map_cons]

/-- If attempts `0..j-1` are retryable failures and attempt `j` is a
non-retryable failure, the remaining loop surfaces that error
unwrapped, after `j - k` waits and `j - k + 1` further attempts. -/
theorem transcribeChunkGo_nonretryable (maxRetries timeoutSec : Nat)
    (env : Nat → AttemptOutcome) :
    ∀ n k j, k + n = maxRetries + 1 → k ≤ j → j ≤ maxRetries →
    (∀ i, k ≤ i → i < j → ∃ f, env i = AttemptOutcome.fail f ∧
        (normalizeError timeoutSec f).retryable = true) →
    ∀ fj, env j = AttemptOutcome.fail fj →
    (normalizeError timeoutSec fj).retryable = false →
    transcribeChunkGo maxRetries timeoutSec env (List.range' k n) =
      (Except.error (normalizeError timeoutSec fj),
        ((List.range' k (j - k)).map (fun a => 1000 * (a + 1)), j - k + 1)) := by
  intro n
  induction n with
  | zero => omega
  | succ m ih =>
    intro k j hk hkj hjmax hall fj hfj hret
    rw [List.range'_succ]
    rcases Nat.lt_or_ge k j with hlt | hge
    · obtain ⟨f, hf, hfret⟩ := hall k (le_refl k) hlt
      have hkmax : k ≠ maxRetries := by omega
      simp only [transcribeChunkGo, hf, hfret]
      rw [if_neg (by simp [hfret]), if_neg hkmax,
        ih (k + 1) j (by omega) (by omega) hjmax
          (fun i hi1 hi2 => hall i (by omega) hi2) fj hfj hret]
      rw [show j - k = (j - (k + 1)) + 1 by omega, List.range'_succ]
      simp only [List.map_cons]
    · have hkeq : k = j := by omega
      subst hkeq
      simp only [transcribeChunkGo, hfj, hret]
      simp

/-! ## Claim theorems: retry policy -/

/-- Claim C3 (confirmed): if all `maxRetries + 1` attempts fail with
retryable errors, `transcribeChunk` ends with the `maxRetriesExceeded`
error wrapping the normalization of the last failure and reporting
`maxRetries + 1` attempts, after waiting `1000 * (attempt + 1)` ms
(1 s, 2 s, ...) before each retry. -/
theorem transcribeChunk_max_retries_claim (maxRetries timeoutSec : Nat)
    (env : Nat → AttemptOutcome)
    (hall : ∀ i, i ≤ maxRetries → ∃ f, env i = AttemptOutcome.fail f ∧
        (normalizeError timeoutSec f).retryable = true) :
    ∃ flast, env maxRetries = AttemptOutcome.fail flast ∧
      transcribeChunkModel maxRetries timeoutSec env =
        (Except.error (APIErrorM.maxRetriesExceeded (maxRetries + 1)
            (some (normalizeError timeoutSec flast))),
          ((List.range maxRetries).map (fun a => 1000 * (a + 1)),
            maxRetries + 1)) := by
  obtain ⟨flast, hflast, h⟩ :=
    transcribeChunkGo_all_retryable maxRetries timeoutSec env
      (maxRetries + 1) 0 (by omega) (by omega)
      (fun i _ hi => hall i hi)
  refine ⟨flast, hflast, ?_⟩
  rw [transcribeChunkModel, List.range_eq_range', h, List.range_eq_range']
  simp

/-- Witness for `transcribeChunk_max_retries_claim`: three attempts all
answering HTTP 500 give the wrapped terminal error, with waits
1000 ms then 2000 ms. -/
theorem transcribeChunk_max_retries_claim_witness :
    ∃ flast,
      (fun _ : Nat =>
          AttemptOutcome.fail (AttemptFailure.httpError 500 ("boom"))) 2 =
        AttemptOutcome.fail flast ∧
      transcribeChunkModel 2 60
          (fun _ => AttemptOutcome.fail (AttemptFailure.httpError 500 ("boom"))) =
        (Except.error (APIErrorM.maxRetriesExceeded 3
            (some (normalizeError 60 flast))),
          ([1000, 2000], 3)) :=
  transcribeChunk_max_retries_claim 2 60
    (fun _ => AttemptOutcome.fail (AttemptFailure.httpError 500 ("boom")))
    (fun _ _ => ⟨AttemptFailure.httpError 500 ("boom"), rfl, rfl⟩)

/-- Claim C4 (confirmed): a non-2xx status is classified retryable iff
the status is at least 500 or equals 429; and a non-retryable failure at
any attempt is surfaced immediately and unwrapped, with no further
attempts and no further waits. -/
theorem nonretryable_immediate_claim :
    (∀ status : Nat, ∀ statusText : String, ¬(200 ≤ status ∧ status < 300) →
      ((APIErrorM.fromResponse status statusText).retryable = true ↔
        (500 ≤ status ∨ status = 429))) ∧
    (∀ maxRetries timeoutSec : Nat, ∀ env : Nat → AttemptOutcome, ∀ j,
      j ≤ maxRetries →
      (∀ i, i < j → ∃ f, env i = AttemptOutcome.fail f ∧
          (normalizeError timeoutSec f).retryable = true) →
      ∀ fj, env j = AttemptOutcome.fail fj →
      (normalizeError timeoutSec fj).retryable = false →
      transcribeChunkModel maxRetries timeoutSec env =
        (Except.error (normalizeError timeoutSec fj),
          ((List.range j).map (fun a => 1000 * (a + 1)), j + 1))) := by
  constructor
  · intro status statusText _
    simp [APIErrorM.fromResponse, APIErrorM.retryable]
  · intro maxRetries timeoutSec env j hj hall fj hfj hret
    have h := transcribeChunkGo_nonretryable maxRetries timeoutSec env
      (maxRetries + 1) 0 j (by omega) (by omega) hj
      (fun i _ hi => hall i hi) fj hfj hret
    rw [transcribeChunkModel, List.range_eq_range', h, List.range_eq_range']
    simp

/-- Witness for `nonretryable_immediate_claim`: a 401 response on the
first attempt aborts immediately with the plain `ApiError`, zero waits,
one attempt. -/
theorem nonretryable_immediate_claim_witness :
    (¬(200 ≤ 401 ∧ 401 < 300) ∧
      ((APIErrorM.fromResponse 401 ("Unauthorized")).retryable = true ↔
        (500 ≤ 401 ∨ 401 = 429))) ∧
    transcribeChunkModel 2 60
        (fun _ => AttemptOutcome.fail (AttemptFailure.httpError 401 ("Unauthorized"))) =
      (Except.error (normalizeError 60 (AttemptFailure.httpError 401 ("Unauthorized"))),
        ([], 1)) :=
  ⟨⟨by omega, nonretryable_immediate_claim.1 401 ("Unauthorized") (by omega)⟩,
    nonretryable_immediate_claim.2 2 60
      (fun _ => AttemptOutcome.fail (AttemptFailure.httpError 401 ("Unauthorized")))
      0 (by omega) (fun i hi => absurd hi (by omega))
      (AttemptFailure.httpError 401 ("Unauthorized")) rfl rfl⟩

/-! ## Lemmas about the segmenter -/

theorem getLast?_mem_of_eq {α : Type} :
    ∀ {l : List α} {a : α}, l.getLast? = some a → a ∈ l
  | [], _, h => by simp at h
  | [x], a, h => by
    simp only [List.getLast?_singleton, Option.some.injEq] at h
    simp [h]
  | x :: y :: t, a, h => by
    rw [List.getLast?_cons_cons] at h
    exact List.mem_cons_of_mem x (getLast?_mem_of_eq h)

theorem countP_lt_of_mem {α : Type} (p q : α → Bool)
    (hpq : ∀ x, p x = true → q x = true) :
    ∀ (l : List α) (a : α), a ∈ l → p a = false → q a = true →
      l.countP p < l.countP q := by
  intro l
  induction l with
  | nil => intro a ha; simp at ha
  | cons h t ih =>
    intro a ha hpa hqa
    rw [List.countP_cons, List.countP_cons]
    rcases List.mem_cons.mp ha with rfl | hat
    · rw [hpa, hqa]
      have := List.countP_mono_left (l := t) (fun x _ hx => hpq x hx)
      simp only [Bool.false_eq_true, if_false, if_true]
      omega
    · have := ih a hat hpa hqa
      by_cases hph : p h = true
      · rw [hph, hpq h hph]; omega
      · simp only [Bool.not_eq_true] at hph
        rw [hph]
        simp only [Bool.false_eq_true, if_false]
        omega

/-- In a `≤`-sorted list, the last element bounds every member. -/
theorem sorted_le_getLast? :
    ∀ (l : List ℚ), l.Sorted (· ≤ ·) →
      ∀ a ∈ l, ∀ b, l.getLast? = some b → a ≤ b := by
  intro l
  induction l with
  | nil => intro _ a ha; simp at ha
  | cons h t ih =>
    intro hs a ha b hb
    rcases t with _ | ⟨y, ts⟩
    · simp only [List.getLast?_singleton, Option.some.injEq] at hb
      simp only [List.mem_singleton] at ha
      exact le_of_eq (ha.trans hb)
    · rw [List.getLast?_cons_cons] at hb
      have hs' := (List.sorted_cons.mp hs).2
      rcases List.mem_cons.mp ha with rfl | hat
      · have hb' : b ∈ y :: ts := getLast?_mem_of_eq hb
        exact le_trans ((List.sorted_cons.mp hs).1 b hb') (le_refl b)
      · exact ih hs' a hat b hb

/-- The `bestSplit` fold keeps the last satisfying midpoint, i.e. the
last element of the filtered list. -/
theorem bestSplitFor_eq_getLast_filter (mids : List ℚ) (cs ideal : ℚ) :
    bestSplitFor mids cs ideal =
      (mids.filter (fun m => decide (cs < m ∧ m ≤ ideal))).getLast? := by
  have key : ∀ (l : List ℚ) (acc : Option ℚ),
      l.foldl (fun best m => if cs < m ∧ m ≤ ideal then some m else best) acc =
        ((l.filter (fun m => decide (cs < m ∧ m ≤ ideal))).getLast?).elim acc some := by
    intro l
    induction l with
    | nil => intro acc; rfl
    | cons h t ih =>
      intro acc
      by_cases hp : cs < h ∧ h ≤ ideal
      · rw [List.foldl_cons, if_pos hp, ih (some h),
          List.filter_cons_of_pos (by simpa using hp)]
        rcases hft : t.filter (fun m => decide (cs < m ∧ m ≤ ideal)) with _ | ⟨y, ys⟩
        · rfl
        · rw [List.getLast?_cons_cons,
            List.getLast?_eq_getLast (y :: ys) (by simp)]
          rfl
      · rw [List.foldl_cons, if_neg hp, ih acc,
          List.filter_cons_of_neg (by simpa using hp)]
  rw [bestSplitFor, key]
  rcases hg : (mids.filter (fun m => decide (cs < m ∧ m ≤ ideal))).getLast? with _ | y
  · rfl
  · rfl

theorem bestSplitFor_some {mids : List ℚ} {cs ideal m : ℚ}
    (h : bestSplitFor mids cs ideal = some m) :
    m ∈ mids ∧ cs < m ∧ m ≤ ideal := by
  rw [bestSplitFor_eq_getLast_filter] at h
  have hm := getLast?_mem_of_eq h
  rw [List.mem_filter] at hm
  refine ⟨hm.1, ?_⟩
  have := hm.2
  simpa using this

theorem bestSplitFor_none {mids : List ℚ} {cs ideal : ℚ}
    (h : ∀ m ∈ mids, ¬(cs < m ∧ m ≤ ideal)) :
    bestSplitFor mids cs ideal = none := by
  rw [bestSplitFor_eq_getLast_filter]
  have : mids.filter (fun m => decide (cs < m ∧ m ≤ ideal)) = [] := by
    rw [List.filter_eq_nil_iff]
    intro a ha
    simpa using h a ha
  rw [this]
  rfl

/-- The end of one segmenter step lies strictly beyond the current
start. -/
theorem segStepEnd_gt {total maxChunk : ℚ} (mids : List ℚ) {cs : ℚ}
    (hM : 0 < maxChunk) (hlt : cs < total) :
    cs < segStepEnd total maxChunk mids cs := by
  rw [segStepEnd]
  rcases hbs : bestSplitFor mids cs (cs + maxChunk) with _ | m
  · simp only [Option.getD_none]
    exact lt_min (by linarith) hlt
  · simpa using (bestSplitFor_some hbs).2.1

/-- The end of one segmenter step never exceeds the ideal end
`cs + maxChunk`. -/
theorem segStepEnd_le_ideal (total maxChunk : ℚ) (mids : List ℚ) (cs : ℚ) :
    segStepEnd total maxChunk mids cs ≤ cs + maxChunk := by
  rw [segStepEnd]
  rcases hbs : bestSplitFor mids cs (cs + maxChunk) with _ | m
  · simp only [Option.getD_none]
    exact min_le_left _ _
  · simpa using (bestSplitFor_some hbs).2.2

/-- If every midpoint lies within the audio, no step end exceeds the
total duration. -/
theorem segStepEnd_le_total {total maxChunk : ℚ} {mids : List ℚ} (cs : ℚ)
    (hmid : ∀ m ∈ mids, m ≤ total) :
    segStepEnd total maxChunk mids cs ≤ total := by
  rw [segStepEnd]
  rcases hbs : bestSplitFor mids cs (cs + maxChunk) with _ | m
  · simp only [Option.getD_none]
    exact min_le_right _ _
  · simpa using hmid m (bestSplitFor_some hbs).1

theorem splitRangesGo_head (total maxChunk : ℚ) (mids : List ℚ) :
    ∀ (fuel : Nat) (s : ℚ) (r : ℚ × ℚ),
      (splitRangesGo total maxChunk mids fuel s).head? = some r → r.1 = s := by
  intro fuel s r h
  rcases fuel with _ | fuel
  · simp [splitRangesGo] at h
  · rw [splitRangesGo] at h
    split at h
    · simp only [List.head?_cons, Option.some.injEq] at h
      rw [← h]
    · simp at h

theorem splitRangesGo_chain (total maxChunk : ℚ) (mids : List ℚ) :
    ∀ (fuel : Nat) (s : ℚ),
      List.Chain' (fun a b : ℚ × ℚ => a.2 = b.1)
        (splitRangesGo total maxChunk mids fuel s) := by
  intro fuel
  induction fuel with
  | zero => intro s; simp [splitRangesGo]
  | succ n ih =>
    intro s
    rw [splitRangesGo]
    split
    · rw [List.chain'_cons']
      refine ⟨?_, ih _⟩
      intro y hy
      exact (splitRangesGo_head total maxChunk mids n _ y hy).symm
    · simp

theorem splitRangesGo_bounds {total maxChunk : ℚ} (mids : List ℚ)
    (hM : 0 < maxChunk) :
    ∀ (fuel : Nat) (s : ℚ) (r : ℚ × ℚ),
      r ∈ splitRangesGo total maxChunk mids fuel s →
        r.1 < r.2 ∧ r.2 - r.1 ≤ maxChunk := by
  intro fuel
  induction fuel with
  | zero => intro s r h; simp [splitRangesGo] at h
  | succ n ih =>
    intro s r h
    rw [splitRangesGo] at h
    split at h
    · rcases List.mem_cons.mp h with rfl | hmem
      · refine ⟨segStepEnd_gt mids hM (by assumption), ?_⟩
        have := segStepEnd_le_ideal total maxChunk mids s
        simp only
        linarith
      · exact ih _ r hmem
    · simp at h

/-- When the loop condition fails the loop body produces nothing. -/
theorem splitRangesGo_stop {total maxChunk : ℚ} (mids : List ℚ)
    (fuel : Nat) {s : ℚ} (h : ¬ s < total) :
    splitRangesGo total maxChunk mids fuel s = [] := by
  rcases fuel with _ | fuel
  · rfl
  · rw [splitRangesGo, if_neg h]

/-- With enough fuel the segmenter loop runs to completion: it emits at
least one range and the last emitted range ends exactly at `total`,
provided every midpoint lies within the audio. -/
theorem splitRangesGo_complete {total maxChunk : ℚ} {mids : List ℚ}
    (hM : 0 < maxChunk) (hmid : ∀ m ∈ mids, m ≤ total) :
    ∀ (fuel : Nat) (s : ℚ), s < total →
      mids.countP (fun m => decide (s < m)) +
          (⌈(total - s) / maxChunk⌉).toNat ≤ fuel →
      splitRangesGo total maxChunk mids fuel s ≠ [] ∧
        (splitRangesGo total maxChunk mids fuel s).getLast?.map Prod.snd =
          some total := by
  intro fuel
  induction fuel with
  | zero =>
    intro s hs hle
    exfalso
    have hpos : 0 < ⌈(total - s) / maxChunk⌉ := by
      rw [Int.ceil_pos]
      exact div_pos (by linarith) hM
    omega
  | succ n ih =>
    intro s hs hle
    have hgo : splitRangesGo total maxChunk mids (n + 1) s =
        (s, segStepEnd total maxChunk mids s) ::
          splitRangesGo total maxChunk mids n (segStepEnd total maxChunk mids s) := by
      rw [splitRangesGo, if_pos hs]
    rw [hgo]
    set e := segStepEnd total maxChunk mids s with he
    have heg : s < e := segStepEnd_gt mids hM hs
    have hetot : e ≤ total := segStepEnd_le_total s hmid
    by_cases hecase : e < total
    · have hcount : mids.countP (fun m => decide (e < m)) +
          (⌈(total - e) / maxChunk⌉).toNat ≤ n := by
        rcases hbs : bestSplitFor mids s (s + maxChunk) with _ | m
        · have hemin : e = s + maxChunk := by
            have h2 : e = min (s + maxChunk) total := by
              rw [he, segStepEnd, hbs]
              rfl
            rcases le_total (s + maxChunk) total with h1 | h1
            · rw [h2, min_eq_left h1]
            · exfalso
              rw [h2, min_eq_right h1] at hecase
              exact lt_irrefl _ hecase
          have hcnt : mids.countP (fun x => decide (e < x)) ≤
              mids.countP (fun x => decide (s < x)) :=
            List.countP_mono_left (fun x _ hx => by
              simp only [decide_eq_true_eq] at hx ⊢
              linarith)
          have hM' : maxChunk ≠ 0 := ne_of_gt hM
          have hdiv : (total - e) / maxChunk = (total - s) / maxChunk - 1 := by
            rw [hemin]
            field_simp
            ring
          have hceil : ⌈(total - e) / maxChunk⌉ =
              ⌈(total - s) / maxChunk⌉ - 1 := by
            rw [hdiv, Int.ceil_sub_one]
          have hpos : 0 < ⌈(total - s) / maxChunk⌉ := by
            rw [Int.ceil_pos]
            exact div_pos (by linarith) hM
          omega
        · have hem : e = m := by
            rw [he, segStepEnd, hbs]
            rfl
          obtain ⟨hmem, hsm, _⟩ := bestSplitFor_some hbs
          have hcnt : mids.countP (fun x => decide (e < x)) <
              mids.countP (fun x => decide (s < x)) := by
            refine countP_lt_of_mem _ _ (fun x hx => by
                simp only [decide_eq_true_eq] at hx ⊢
                linarith) mids m hmem ?_ ?_
            · simp [hem]
            · simp [hsm]
          have hceil : ⌈(total - e) / maxChunk⌉ ≤
              ⌈(total - s) / maxChunk⌉ := by
            refine Int.ceil_le_ceil ?_
            exact (div_le_div_iff_of_pos_right hM).mpr (by linarith)
          omega
      obtain ⟨hne, hlast⟩ := ih e hecase hcount
      refine ⟨by simp, ?_⟩
      rcases hrest : splitRangesGo total maxChunk mids n e with _ | ⟨y, ys⟩
      · exact absurd hrest hne
      · rw [List.getLast?_cons_cons]
        rw [hrest] at hlast
        exact hlast
    · have hetot' : e = total := le_antisymm hetot (not_lt.mp hecase)
      rw [splitRangesGo_stop mids n hecase]
      exact ⟨by simp, by simp [hetot']⟩

/-! ## Claim theorems: segmenter -/

/-- Claim C1 (corrected): for positive `totalDuration` and
`maxChunkDuration` and any silence intervals whose midpoints lie within
the audio, the segmenter ranges are contiguous, start at 0, end at
`totalDuration`, no range is longer than `maxChunkDuration`, and when
`totalDuration <= maxChunkDuration` exactly one range is produced.  The
restriction on midpoints is needed: see
`splitAudio_last_end_counterexample`. -/
theorem splitAudio_ranges_claim (total mc : ℚ) (ivs : List (ℚ × ℚ))
    (hT : 0 < total) (hM : 0 < mc)
    (hiv : ∀ r ∈ ivs, midpointOf r ≤ total) :
    List.Chain' (fun a b : ℚ × ℚ => a.2 = b.1) (splitAudioRanges total mc ivs) ∧
    (splitAudioRanges total mc ivs).head?.map Prod.fst = some 0 ∧
    (splitAudioRanges total mc ivs).getLast?.map Prod.snd = some total ∧
    (∀ r ∈ splitAudioRanges total mc ivs, r.2 - r.1 ≤ mc) ∧
    (total ≤ mc → (splitAudioRanges total mc ivs).length = 1) := by
  by_cases hcase : total ≤ mc
  · rw [splitAudioRanges, if_pos hcase]
    refine ⟨by simp, by simp, by simp, ?_, fun _ => rfl⟩
    intro r hr
    simp only [List.mem_singleton] at hr
    subst hr
    simp only
    linarith
  · rw [splitAudioRanges, if_neg hcase]
    have hmid : ∀ m ∈ ivs.map midpointOf, m ≤ total := by
      intro m hm
      obtain ⟨r, hr, rfl⟩ := List.mem_map.mp hm
      exact hiv r hr
    have hfuel : (ivs.map midpointOf).countP (fun m => decide ((0:ℚ) < m)) +
        (⌈(total - 0) / mc⌉).toNat ≤ splitFuel total mc (ivs.map midpointOf) := by
      rw [splitFuel, sub_zero]
      have h1 := List.countP_le_length (fun m => decide ((0:ℚ) < m))
        (l := ivs.map midpointOf)
      omega
    obtain ⟨hne, hlast⟩ := splitRangesGo_complete hM hmid
      (splitFuel total mc (ivs.map midpointOf)) 0 hT hfuel
    refine ⟨splitRangesGo_chain total mc _ _ _, ?_, hlast, ?_,
      fun hc => absurd hc hcase⟩
    · rcases hl : splitRangesGo total mc (ivs.map midpointOf)
          (splitFuel total mc (ivs.map midpointOf)) 0 with _ | ⟨y, ys⟩
      · exact absurd hl hne
      · have hy := splitRangesGo_head total mc (ivs.map midpointOf)
          (splitFuel total mc (ivs.map midpointOf)) 0 y (by rw [hl]; rfl)
        simp [hy]
    · intro r hr
      exact (splitRangesGo_bounds (ivs.map midpointOf) hM _ _ r hr).2

/-- Witness for `splitAudio_ranges_claim`: a 30 s file, 25 s max chunks,
one silence interval at 9–11 s. -/
theorem splitAudio_ranges_claim_witness :
    ((0:ℚ) < 30 ∧ (0:ℚ) < 25 ∧
      (∀ r ∈ [((9:ℚ), (11:ℚ))], midpointOf r ≤ 30)) ∧
    (List.Chain' (fun a b : ℚ × ℚ => a.2 = b.1)
        (splitAudioRanges 30 25 [(9, 11)]) ∧
      (splitAudioRanges 30 25 [(9, 11)]).head?.map Prod.fst = some 0 ∧
      (splitAudioRanges 30 25 [(9, 11)]).getLast?.map Prod.snd = some 30 ∧
      (∀ r ∈ splitAudioRanges 30 25 [(9, 11)], r.2 - r.1 ≤ 25) ∧
      ((30:ℚ) ≤ 25 → (splitAudioRanges 30 25 [(9, 11)]).length = 1)) :=
  ⟨⟨by norm_num, by norm_num, by
      intro r hr
      simp only [List.mem_singleton] at hr
      subst hr
      norm_num [midpointOf]⟩,
    splitAudio_ranges_claim 30 25 [(9, 11)] (by norm_num) (by norm_num) (by
      intro r hr
      simp only [List.mem_singleton] at hr
      subst hr
      norm_num [midpointOf])⟩

/-- Claim C1 counterexample: with a silence interval whose midpoint lies
beyond the end of the audio (total 30 s, max chunk 25 s, interval
30–32 s, midpoint 31 s) the produced ranges are [(0, 25), (25, 31)], so
the last range does not end at `totalDuration` even though
`totalDuration > 0` and `maxChunkDuration > 0`. -/
theorem splitAudio_last_end_counterexample :
    (0:ℚ) < 30 ∧ (0:ℚ) < 25 ∧
    splitAudioRanges 30 25 [(30, 32)] = [(0, 25), (25, 31)] ∧
    ¬((splitAudioRanges 30 25 [(30, 32)]).getLast?.map Prod.snd =
        some 30) := by
  have heval : splitAudioRanges 30 25 [(30, 32)] = [(0, 25), (25, 31)] := by
    have hc : (⌈(30:ℚ)/25⌉) = 2 := by
      rw [Int.ceil_eq_iff]
      norm_num
    have hf : splitFuel 30 25 [(31:ℚ)] = 4 := by
      simp [splitFuel, hc]
    norm_num [splitAudioRanges, midpointOf]
    rw [hf]
    norm_num [splitRangesGo, segStepEnd, bestSplitFor]
  refine ⟨by norm_num, by norm_num, heval, ?_⟩
  rw [heval]
  simp only [List.getLast?_cons_cons, List.getLast?_singleton, Option.map_some]
  intro h
  have := Option.some.inj h
  norm_num at this

/-- Claim C2 (corrected): one segmenter step cuts at the **last**
midpoint (in supplied list order) lying in `(currentStart, idealEnd]`;
when the midpoint list is sorted ascending — as the silence detector
produces it — that is the largest such midpoint; when no midpoint
qualifies, the step ends at `min idealEnd totalDuration`.  For an
arbitrary supply order the "largest" reading fails: see
`segStep_largest_counterexample`. -/
theorem segStep_claim (mids : List ℚ) (cs mc total : ℚ) :
    bestSplitFor mids cs (cs + mc) =
      (mids.filter (fun m => decide (cs < m ∧ m ≤ cs + mc))).getLast? ∧
    (mids.Sorted (· ≤ ·) → ∀ m ∈ mids, cs < m → m ≤ cs + mc →
      ∃ mm, segStepEnd total mc mids cs = mm ∧ mm ∈ mids ∧ cs < mm ∧
        mm ≤ cs + mc ∧ m ≤ mm) ∧
    ((∀ m ∈ mids, ¬(cs < m ∧ m ≤ cs + mc)) →
      segStepEnd total mc mids cs = min (cs + mc) total) := by
  refine ⟨bestSplitFor_eq_getLast_filter mids cs (cs + mc), ?_, ?_⟩
  · intro hsort m hm hcs hle
    have hmf : m ∈ mids.filter (fun x => decide (cs < x ∧ x ≤ cs + mc)) :=
      List.mem_filter.mpr ⟨hm, by simp [hcs, hle]⟩
    have hne : mids.filter (fun x => decide (cs < x ∧ x ≤ cs + mc)) ≠ [] := by
      intro hnil
      rw [hnil] at hmf
      simp at hmf
    obtain ⟨mm, hmm⟩ : ∃ mm,
        (mids.filter (fun x => decide (cs < x ∧ x ≤ cs + mc))).getLast? =
          some mm := by
      rw [List.getLast?_eq_getLast _ hne]
      exact ⟨_, rfl⟩
    have hbs : bestSplitFor mids cs (cs + mc) = some mm := by
      rw [bestSplitFor_eq_getLast_filter]
      exact hmm
    obtain ⟨hmem, h1, h2⟩ := bestSplitFor_some hbs
    refine ⟨mm, ?_, hmem, h1, h2, ?_⟩
    · rw [segStepEnd, hbs]
      rfl
    · exact sorted_le_getLast? _ (hsort.filter _) m hmf mm hmm
  · intro hnone
    rw [segStepEnd, bestSplitFor_none hnone]
    rfl

/-- Witness for `segStep_claim`: sorted midpoints `[10, 20]`, current
start 0, ideal end 25 — the step cuts at 20, the largest qualifying
midpoint. -/
theorem segStep_claim_witness :
    ∃ mm, segStepEnd 30 25 [10, 20] 0 = mm ∧ mm ∈ [(10:ℚ), 20] ∧
      (0:ℚ) < mm ∧ mm ≤ 0 + 25 ∧ (20:ℚ) ≤ mm :=
  (segStep_claim [10, 20] 0 25 30).2.1
    (by norm_num [List.sorted_cons]) 20 (by norm_num) (by norm_num)
    (by norm_num)

/-- Claim C2 counterexample: midpoints supplied in the order `[20, 10]`
(intervals 19–21 then 9–11).  In the first step (`currentStart = 0`,
`idealEnd = 25`) both midpoints qualify and the largest is 20, yet the
code cuts at 10, the last one in supplied order. -/
theorem segStep_largest_counterexample :
    (splitAudioRanges 30 25 [(19, 21), (9, 11)]).head? = some ((0:ℚ), 10) ∧
    midpointOf (19, 21) = 20 ∧ ((0:ℚ) < 20 ∧ (20:ℚ) ≤ 0 + 25) ∧
    (10:ℚ) ≠ 20 := by
  have heval : splitAudioRanges 30 25 [(19, 21), (9, 11)] =
      [(0, 10), (10, 20), (20, 30)] := by
    have hc : (⌈(30:ℚ)/25⌉) = 2 := by
      rw [Int.ceil_eq_iff]
      norm_num
    have hf : splitFuel 30 25 [(20:ℚ), 10] = 5 := by
      simp [splitFuel, hc]
    norm_num [splitAudioRanges, midpointOf]
    rw [hf]
    norm_num [splitRangesGo, segStepEnd, bestSplitFor]
  refine ⟨?_, by norm_num [midpointOf], by norm_num, by norm_num⟩
  rw [heval]
  rfl

/-! ## Lemmas about the orchestration -/

theorem mapSet_self (m : Nat → Option (List Char)) (k : Nat) (v : List Char) :
    mapSet m k v k = some v := by
  simp [mapSet]

theorem mapSet_other (m : Nat → Option (List Char)) (k : Nat) (v : List Char)
    {i : Nat} (h : i ≠ k) : mapSet m k v i = m i := by
  simp [mapSet, h]

theorem presetSilent_cons (c : ChunkM) (cs : List ChunkM)
    (m : Nat → Option (List Char)) :
    presetSilent (c :: cs) m =
      presetSilent cs (if c.isSilent then mapSet m c.index [] else m) := rfl

theorem presetSilent_eq_or : ∀ (chunks : List ChunkM)
    (m : Nat → Option (List Char)) (i : Nat),
    presetSilent chunks m i = m i ∨ presetSilent chunks m i = some [] := by
  intro chunks
  induction chunks with
  | nil => intro m i; exact Or.inl rfl
  | cons c cs ih =>
    intro m i
    rw [presetSilent_cons]
    rcases ih (if c.isSilent then mapSet m c.index [] else m) i with h | h
    · rw [h]
      by_cases hs : c.isSilent = true
      · simp only [hs, if_true]
        by_cases hi : i = c.index
        · subst hi
          exact Or.inr (mapSet_self m c.index [])
        · exact Or.inl (mapSet_other m c.index [] hi)
      · simp only [Bool.not_eq_true] at hs
        simp only [hs, Bool.false_eq_true, if_false]
        exact Or.inl trivial
    · exact Or.inr h

theorem presetSilent_mem : ∀ (chunks : List ChunkM)
    (m : Nat → Option (List Char)) (c : ChunkM),
    c ∈ chunks → c.isSilent = true → presetSilent chunks m c.index = some [] := by
  intro chunks
  induction chunks with
  | nil => intro m c hc; simp at hc
  | cons c0 cs ih =>
    intro m c hc hsil
    rw [presetSilent_cons]
    rcases List.mem_cons.mp hc with rfl | hcr
    · rcases presetSilent_eq_or cs
          (if c.isSilent then mapSet m c.index [] else m) c.index with h | h
      · rw [h, hsil]
        simp only [if_true]
        exact mapSet_self m c.index []
      · exact h
    · exact ih _ c hcr hsil

theorem runBatch_cons (api : ChunkM → List Char → List Char) (ctx : List Char)
    (c : ChunkM) (rest : List ChunkM) (m : Nat → Option (List Char)) :
    runBatch api ctx (c :: rest) m =
      ((runBatch api ctx rest
          (mapSet m c.index
            (if isHallucination (api c ctx) then [] else api c ctx))).1,
        (c, ctx) ::
          (runBatch api ctx rest
            (mapSet m c.index
              (if isHallucination (api c ctx) then [] else api c ctx))).2) := by
  rw [runBatch]

theorem runBatch_log (api : ChunkM → List Char → List Char) (ctx : List Char) :
    ∀ (cl : List ChunkM) (m : Nat → Option (List Char)),
      (runBatch api ctx cl m).2 = cl.map (fun c => (c, ctx)) := by
  intro cl
  induction cl with
  | nil => intro m; rfl
  | cons c rest ih =>
    intro m
    rw [runBatch_cons, List.map_cons, ih]

theorem runBatch_preserve (api : ChunkM → List Char → List Char)
    (ctx : List Char) :
    ∀ (cl : List ChunkM) (m : Nat → Option (List Char)) (i : Nat),
      (∀ c ∈ cl, c.index ≠ i) → (runBatch api ctx cl m).1 i = m i := by
  intro cl
  induction cl with
  | nil => intro m i _; rfl
  | cons c rest ih =>
    intro m i h
    rw [runBatch_cons]
    rw [ih _ i (fun c' hc' => h c' (List.mem_cons_of_mem c hc'))]
    exact mapSet_other _ _ _ (fun he => h c (List.mem_cons_self c rest) he.symm)

theorem runBatch_written (api : ChunkM → List Char → List Char)
    (ctx : List Char) :
    ∀ (cl : List ChunkM) (m : Nat → Option (List Char)) (c : ChunkM),
      c ∈ cl → (cl.map ChunkM.index).Nodup →
      (runBatch api ctx cl m).1 c.index =
        some (if isHallucination (api c ctx) then [] else api c ctx) := by
  intro cl
  induction cl with
  | nil => intro m c hc; simp at hc
  | cons c0 rest ih =>
    intro m c hc hnd
    simp only [List.map_cons, List.nodup_cons] at hnd
    rcases List.mem_cons.mp hc with rfl | hcr
    · rw [runBatch_cons]
      rw [runBatch_preserve api ctx rest _ c.index ?hind]
      · exact mapSet_self _ _ _
      case hind =>
        intro c' hc' he
        exact hnd.1 (he ▸ List.mem_map_of_mem ChunkM.index hc')
    · rw [runBatch_cons]
      exact ih _ c hcr hnd.2

theorem runFullSerial_cons_silent (cmc : Nat)
    (api : ChunkM → List Char → List Char) (c : ChunkM) (rest : List ChunkM)
    (m : Nat → Option (List Char)) (ctx : List Char) (hb : c.isSilent = true) :
    runFullSerial cmc api (c :: rest) m ctx =
      runFullSerial cmc api rest m ctx := by
  rw [runFullSerial, if_pos hb]

theorem runFullSerial_cons_loud (cmc : Nat)
    (api : ChunkM → List Char → List Char) (c : ChunkM) (rest : List ChunkM)
    (m : Nat → Option (List Char)) (ctx : List Char) (hb : c.isSilent = false) :
    runFullSerial cmc api (c :: rest) m ctx =
      ((runFullSerial cmc api rest
          (mapSet m c.index
            (if isHallucination (api c ctx) then [] else api c ctx))
          (if (if isHallucination (api c ctx) then [] else api c ctx).isEmpty
            then ctx
            else truncateContext cmc
              (ctx ++ (if isHallucination (api c ctx) then [] else api c ctx)))).1,
        (c, ctx) ::
          (runFullSerial cmc api rest
            (mapSet m c.index
              (if isHallucination (api c ctx) then [] else api c ctx))
            (if (if isHallucination (api c ctx) then [] else api c ctx).isEmpty
              then ctx
              else truncateContext cmc
                (ctx ++ (if isHallucination (api c ctx) then [] else api c ctx)))).2) := by
  rw [runFullSerial, if_neg (by simp [hb])]

theorem runFullSerial_log (cmc : Nat) (api : ChunkM → List Char → List Char) :
    ∀ (cl : List ChunkM) (m : Nat → Option (List Char)) (ctx : List Char),
      (runFullSerial cmc api cl m ctx).2.map Prod.fst =
        cl.filter (fun c => !c.isSilent) := by
  intro cl
  induction cl with
  | nil => intro m ctx; rfl
  | cons c rest ih =>
    intro m ctx
    by_cases hb : c.isSilent = true
    · rw [runFullSerial_cons_silent cmc api c rest m ctx hb,
        List.filter_cons_of_neg (by simp [hb])]
      exact ih m ctx
    · simp only [Bool.not_eq_true] at hb
      rw [runFullSerial_cons_loud cmc api c rest m ctx hb,
        List.filter_cons_of_pos (by simp [hb]), List.map_cons, ih]

theorem runFullSerial_preserve (cmc : Nat)
    (api : ChunkM → List Char → List Char) :
    ∀ (cl : List ChunkM) (m : Nat → Option (List Char)) (ctx : List Char)
      (i : Nat), (∀ c ∈ cl, c.isSilent = false → c.index ≠ i) →
      (runFullSerial cmc api cl m ctx).1 i = m i := by
  intro cl
  induction cl with
  | nil => intro m ctx i _; rfl
  | cons c rest ih =>
    intro m ctx i h
    by_cases hb : c.isSilent = true
    · rw [runFullSerial_cons_silent cmc api c rest m ctx hb]
      exact ih m ctx i (fun c' hc' => h c' (List.mem_cons_of_mem c hc'))
    · simp only [Bool.not_eq_true] at hb
      rw [runFullSerial_cons_loud cmc api c rest m ctx hb]
      rw [ih _ _ i (fun c' hc' => h c' (List.mem_cons_of_mem c hc'))]
      exact mapSet_other _ _ _
        (fun he => h c (List.mem_cons_self c rest) hb he.symm)

theorem runFullSerial_all_silent (cmc : Nat)
    (api : ChunkM → List Char → List Char) :
    ∀ (cl : List ChunkM) (m : Nat → Option (List Char)) (ctx : List Char),
      (∀ c ∈ cl, c.isSilent = true) →
      runFullSerial cmc api cl m ctx = (m, []) := by
  intro cl
  induction cl with
  | nil => intro m ctx _; rfl
  | cons c rest ih =>
    intro m ctx h
    rw [runFullSerial_cons_silent cmc api c rest m ctx
      (h c (List.mem_cons_self c rest))]
    exact ih m ctx (fun c' hc' => h c' (List.mem_cons_of_mem c hc'))

theorem runFullSerial_written (cmc : Nat)
    (api : ChunkM → List Char → List Char) :
    ∀ (cl : List ChunkM) (m : Nat → Option (List Char)) (ctx : List Char)
      (e : ChunkM × List Char),
      e ∈ (runFullSerial cmc api cl m ctx).2 →
      ((cl.filter (fun c => !c.isSilent)).map ChunkM.index).Nodup →
      (runFullSerial cmc api cl m ctx).1 e.1.index =
        some (if isHallucination (api e.1 e.2) then [] else api e.1 e.2) := by
  intro cl
  induction cl with
  | nil => intro m ctx e he; simp [runFullSerial] at he
  | cons c rest ih =>
    intro m ctx e he hnd
    by_cases hb : c.isSilent = true
    · rw [runFullSerial_cons_silent cmc api c rest m ctx hb] at he ⊢
      rw [List.filter_cons_of_neg (by simp [hb])] at hnd
      exact ih m ctx e he hnd
    · simp only [Bool.not_eq_true] at hb
      rw [List.filter_cons_of_pos (by simp [hb]), List.map_cons,
        List.nodup_cons] at hnd
      rw [runFullSerial_cons_loud cmc api c rest m ctx hb] at he ⊢
      rcases List.mem_cons.mp he with rfl | her
      · simp only
        rw [runFullSerial_preserve cmc api rest _ _ c.index ?hind]
        · exact mapSet_self _ _ _
        case hind =>
          intro c' hc' hb' he'
          refine hnd.1 (he' ▸ List.mem_map_of_mem ChunkM.index ?_)
          exact List.mem_filter.mpr ⟨hc', by simp [hb']⟩
      · exact ih _ _ e her hnd.2

theorem runFullSerial_ctx (cmc : Nat)
    (api : ChunkM → List Char → List Char) :
    ∀ (cl : List ChunkM) (m : Nat → Option (List Char)) (acc : List Char)
      (k : Nat) (e : ChunkM × List Char),
      (runFullSerial cmc api cl m (truncateContext cmc acc)).2[k]? = some e →
      e.2 = truncateContext cmc (acc ++
        (((runFullSerial cmc api cl m (truncateContext cmc acc)).2.take k).map
            (fun e2 =>
              if isHallucination (api e2.1 e2.2) then [] else api e2.1 e2.2)).flatten) := by
  intro cl
  induction cl with
  | nil => intro m acc k e h; simp [runFullSerial] at h
  | cons c rest ih =>
    intro m acc k e h
    by_cases hb : c.isSilent = true
    · rw [runFullSerial_cons_silent cmc api c rest m _ hb] at h ⊢
      exact ih m acc k e h
    · simp only [Bool.not_eq_true] at hb
      rw [runFullSerial_cons_loud cmc api c rest m _ hb] at h ⊢
      have hctx2 :
          (if (if isHallucination (api c (truncateContext cmc acc)) then []
                else api c (truncateContext cmc acc)).isEmpty
            then truncateContext cmc acc
            else truncateContext cmc (truncateContext cmc acc ++
              (if isHallucination (api c (truncateContext cmc acc)) then []
                else api c (truncateContext cmc acc)))) =
          truncateContext cmc (acc ++
            (if isHallucination (api c (truncateContext cmc acc)) then []
              else api c (truncateContext cmc acc))) := by
        by_cases hT : (if isHallucination (api c (truncateContext cmc acc)) then []
            else api c (truncateContext cmc acc)).isEmpty
        · rw [if_pos hT, List.isEmpty_iff.mp hT, List.append_nil]
        · rw [if_neg hT, truncateContext_append]
      rcases k with _ | k
      · simp only [List.getElem?_cons_zero, Option.some.injEq] at h
        rw [← h]
        simp [truncateContext]
      · simp only [List.getElem?_cons_succ] at h
        rw [hctx2] at h
        have := ih _ (acc ++
          (if isHallucination (api c (truncateContext cmc acc)) then []
            else api c (truncateContext cmc acc))) k e h
        rw [this, List.take_succ_cons, List.map_cons, List.flatten_cons,
          hctx2, ← List.append_assoc]

theorem runSliding_log (cmc : Nat) (api : ChunkM → List Char → List Char)
    (nonSilent : List ChunkM) (m : Nat → Option (List Char)) :
    (runSliding cmc api nonSilent m).2.map Prod.fst = nonSilent := by
  cases nonSilent with
  | nil => rfl
  | cons first remaining =>
    rw [runSliding]
    by_cases hr : remaining.isEmpty
    · rw [if_pos hr, List.isEmpty_iff.mp hr]
      rfl
    · rw [if_neg hr]
      simp only [List.map_cons, runBatch_log, List.map_map]
      rw [show (Prod.fst ∘ fun c => (c,
          if (if isHallucination (api first []) then []
            else api first []).isEmpty then []
          else truncateContext cmc
            (if isHallucination (api first []) then []
              else api first []))) = id from rfl, List.map_id]

theorem runSliding_preserve (cmc : Nat)
    (api : ChunkM → List Char → List Char) (nonSilent : List ChunkM)
    (m : Nat → Option (List Char)) (i : Nat)
    (h : ∀ c ∈ nonSilent, c.index ≠ i) :
    (runSliding cmc api nonSilent m).1 i = m i := by
  cases nonSilent with
  | nil => rfl
  | cons first remaining =>
    rw [runSliding]
    by_cases hr : remaining.isEmpty
    · rw [if_pos hr]
      exact mapSet_other _ _ _
        (fun he => h first (List.mem_cons_self _ _) he.symm)
    · rw [if_neg hr]
      rw [runBatch_preserve api _ remaining _ i
        (fun c' hc' => h c' (List.mem_cons_of_mem _ hc'))]
      exact mapSet_other _ _ _
        (fun he => h first (List.mem_cons_self _ _) he.symm)

theorem runSliding_written (cmc : Nat)
    (api : ChunkM → List Char → List Char) (nonSilent : List ChunkM)
    (m : Nat → Option (List Char))
    (hnd : (nonSilent.map ChunkM.index).Nodup) :
    ∀ e ∈ (runSliding cmc api nonSilent m).2,
      (runSliding cmc api nonSilent m).1 e.1.index =
        some (if isHallucination (api e.1 e.2) then [] else api e.1 e.2) := by
  cases nonSilent with
  | nil => intro e he; simp [runSliding] at he
  | cons first remaining =>
    simp only [List.map_cons, List.nodup_cons] at hnd
    intro e he
    rw [runSliding] at he ⊢
    by_cases hr : remaining.isEmpty
    · rw [if_pos hr] at he ⊢
      simp only [List.mem_singleton] at he
      subst he
      exact mapSet_self _ _ _
    · rw [if_neg hr] at he ⊢
      rcases List.mem_cons.mp he with rfl | her
      · simp only
        rw [runBatch_preserve api _ remaining _ first.index ?hind]
        · exact mapSet_self _ _ _
        case hind =>
          intro c' hc' he'
          exact hnd.1 (he' ▸ List.mem_map_of_mem ChunkM.index hc')
      · have hlog := runBatch_log api
          (if (if isHallucination (api first []) then []
              else api first []).isEmpty then []
            else truncateContext cmc
              (if isHallucination (api first []) then [] else api first []))
          remaining
          (mapSet m first.index
            (if isHallucination (api first []) then [] else api first []))
        rw [hlog] at her
        obtain ⟨c', hc', rfl⟩ := List.mem_map.mp her
        exact runBatch_written api _ remaining _ c' hc' hnd.2

theorem modeRun_log_fst (cmc : Nat) (api : ChunkM → List Char → List Char)
    (chunks : List ChunkM) (mode : ContextMode) :
    (modeRun cmc api chunks mode).2.map Prod.fst =
      chunks.filter (fun c => !c.isSilent) := by
  cases mode with
  | none =>
    rw [modeRun, runBatch_log, List.map_map]
    rw [show (Prod.fst ∘ fun c : ChunkM => (c, ([] : List Char))) = id from rfl,
      List.map_id]
  | full_serial => exact runFullSerial_log cmc api chunks _ []
  | sliding => exact runSliding_log cmc api _ _

theorem modeRun_silent (cmc : Nat) (api : ChunkM → List Char → List Char)
    (chunks : List ChunkM) (mode : ContextMode)
    (hnd : (chunks.map ChunkM.index).Nodup)
    (c : ChunkM) (hc : c ∈ chunks) (hsil : c.isSilent = true) :
    (modeRun cmc api chunks mode).1 c.index = some [] := by
  have hpre : presetSilent chunks (fun _ => Option.none) c.index = some [] :=
    presetSilent_mem chunks _ c hc hsil
  have hne : ∀ c' ∈ chunks.filter (fun x => !x.isSilent), c'.index ≠ c.index := by
    intro c' hc' he
    have hc'm : c' ∈ chunks := (List.mem_filter.mp hc').1
    have hcc : c' = c := List.inj_on_of_nodup_map hnd hc'm hc he
    subst hcc
    have hfl := (List.mem_filter.mp hc').2
    rw [hsil] at hfl
    simp at hfl
  cases mode with
  | none =>
    rw [modeRun, runBatch_preserve api [] _ _ c.index hne]
    exact hpre
  | full_serial =>
    rw [modeRun, runFullSerial_preserve cmc api chunks _ [] c.index ?hind]
    · exact hpre
    case hind =>
      intro c' hc' hb'
      exact hne c' (List.mem_filter.mpr ⟨hc', by simp [hb']⟩)
  | sliding =>
    rw [modeRun, runSliding_preserve cmc api _ _ c.index hne]
    exact hpre

theorem modeRun_written (cmc : Nat) (api : ChunkM → List Char → List Char)
    (chunks : List ChunkM) (mode : ContextMode)
    (hnd : (chunks.map ChunkM.index).Nodup) :
    ∀ e ∈ (modeRun cmc api chunks mode).2,
      (modeRun cmc api chunks mode).1 e.1.index =
        some (if isHallucination (api e.1 e.2) then [] else api e.1 e.2) := by
  have hndf : ((chunks.filter (fun c => !c.isSilent)).map ChunkM.index).Nodup :=
    hnd.sublist (List.Sublist.map ChunkM.index (List.filter_sublist chunks))
  cases mode with
  | none =>
    intro e he
    rw [modeRun] at he ⊢
    rw [runBatch_log] at he
    obtain ⟨c', hc', rfl⟩ := List.mem_map.mp he
    exact runBatch_written api [] _ _ c' hc' hndf
  | full_serial =>
    intro e he
    rw [modeRun] at he ⊢
    exact runFullSerial_written cmc api chunks _ [] e he hndf
  | sliding =>
    intro e he
    rw [modeRun] at he ⊢
    exact runSliding_written cmc api _ _ hndf e he

theorem transcribeModel_log (cmc : Nat) (api : ChunkM → List Char → List Char)
    (td : ℚ) (chunks : List ChunkM) (mode : ContextMode) (conc : Nat) :
    (transcribeModel cmc api td chunks mode conc).2 =
      (modeRun cmc api chunks mode).2 := by
  rw [transcribeModel]
  by_cases h : chunks.isEmpty
  · rw [if_pos h, List.isEmpty_iff.mp h]
    cases mode <;> rfl
  · rw [if_neg h]

theorem transcribeModel_segments (cmc : Nat)
    (api : ChunkM → List Char → List Char) (td : ℚ) (chunks : List ChunkM)
    (mode : ContextMode) (conc : Nat) (h : chunks.isEmpty = false) :
    (transcribeModel cmc api td chunks mode conc).1.segments =
      chunks.map (segOf (modeRun cmc api chunks mode).1) := by
  rw [transcribeModel, if_neg (by simp [h])]

theorem transcribeModel_text (cmc : Nat)
    (api : ChunkM → List Char → List Char) (td : ℚ) (chunks : List ChunkM)
    (mode : ContextMode) (conc : Nat) :
    (transcribeModel cmc api td chunks mode conc).1.text =
      (((transcribeModel cmc api td chunks mode conc).1.segments).map
        SegM.text).flatten := by
  rw [transcribeModel]
  by_cases h : chunks.isEmpty
  · rw [if_pos h]
    rfl
  · rw [if_neg h]

theorem transcribeModel_stats (cmc : Nat)
    (api : ChunkM → List Char → List Char) (td : ℚ) (chunks : List ChunkM)
    (mode : ContextMode) (conc : Nat) :
    (transcribeModel cmc api td chunks mode conc).1.stats.chunks =
      chunks.length ∧
    (transcribeModel cmc api td chunks mode conc).1.stats.chunksSkippedSilent =
      chunks.length - (chunks.filter (fun c => !c.isSilent)).length := by
  rw [transcribeModel]
  by_cases h : chunks.isEmpty
  · rw [if_pos h, List.isEmpty_iff.mp h]
    exact ⟨rfl, rfl⟩
  · rw [if_neg h]
    exact ⟨rfl, rfl⟩

/-! ## Claim theorems: orchestration -/

/-- Claim C5 (confirmed): in `full_serial` mode the client calls are
exactly the non-silent chunks in index (list) order, one call per chunk,
and the context passed to the `k`-th call equals the concatenation of
all prior sanitized outputs truncated once to the character budget — the
iterative per-step truncation performed by the code coincides with a
single final truncation. -/
theorem full_serial_claim (cmc : Nat) (api : ChunkM → List Char → List Char)
    (td : ℚ) (chunks : List ChunkM) (conc : Nat) :
    ((transcribeModel cmc api td chunks ContextMode.full_serial conc).2.map
        Prod.fst = chunks.filter (fun c => !c.isSilent)) ∧
    (∀ (k : Nat) (e : ChunkM × List Char),
      (transcribeModel cmc api td chunks ContextMode.full_serial conc).2[k]? =
        some e →
      e.2 = truncateContext cmc
        ((((transcribeModel cmc api td chunks
              ContextMode.full_serial conc).2.take k).map
            (fun e2 =>
              if isHallucination (api e2.1 e2.2) then []
              else api e2.1 e2.2)).flatten)) := by
  constructor
  · rw [transcribeModel_log, modeRun_log_fst]
  · intro k e h
    rw [transcribeModel_log] at h ⊢
    rw [modeRun] at h ⊢
    have htr : truncateContext cmc ([] : List Char) = [] :=
      truncateContext_of_le (by simp)
    have h' : (runFullSerial cmc api chunks
        (presetSilent chunks fun _ => Option.none)
        (truncateContext cmc [])).2[k]? = some e := by
      rw [htr]
      exact h
    have key := runFullSerial_ctx cmc api chunks
      (presetSilent chunks fun _ => Option.none) [] k e h'
    rw [htr, List.nil_append] at key
    exact key

/-- Witness for `full_serial_claim`: two non-silent chunks, budget 4;
the second call's context is the first sanitized output truncated to its
trailing 4 characters. -/
theorem full_serial_claim_witness :
    (transcribeModel 4
        (fun c _ => if c.index = 0 then ("hello ".toList) else ("world".toList))
        2 [⟨[], 0, 1000, 0, false⟩, ⟨[], 1000, 2000, 1, false⟩]
        ContextMode.full_serial 1).2[1]? =
      some (⟨[], 1000, 2000, 1, false⟩, ("llo ".toList)) ∧
    ("llo ".toList) = truncateContext 4
      ((((transcribeModel 4
            (fun c _ => if c.index = 0 then ("hello ".toList) else ("world".toList))
            2 [⟨[], 0, 1000, 0, false⟩, ⟨[], 1000, 2000, 1, false⟩]
            ContextMode.full_serial 1).2.take 1).map
          (fun e2 =>
            if isHallucination
                ((fun c _ => if c.index = 0 then ("hello ".toList)
                  else ("world".toList)) e2.1 e2.2) then []
            else (fun c _ => if c.index = 0 then ("hello ".toList)
              else ("world".toList)) e2.1 e2.2)).flatten) := by
  constructor
  · rfl
  · exact (full_serial_claim 4
      (fun c _ => if c.index = 0 then ("hello ".toList) else ("world".toList))
      2 [⟨[], 0, 1000, 0, false⟩, ⟨[], 1000, 2000, 1, false⟩] 1).2 1
      (⟨[], 1000, 2000, 1, false⟩, ("llo ".toList)) (by rfl)

/-- Claim C6 (confirmed): in `sliding` mode, when there is at least one
non-silent chunk, the call log is the first non-silent chunk with empty
context followed by every remaining non-silent chunk with one identical
fixed context: the sanitized first output truncated to the budget, or
empty if the first output was empty or flagged. -/
theorem sliding_claim (cmc : Nat) (api : ChunkM → List Char → List Char)
    (td : ℚ) (chunks : List ChunkM) (conc : Nat) (first : ChunkM)
    (rest : List ChunkM)
    (hns : chunks.filter (fun c => !c.isSilent) = first :: rest) :
    (transcribeModel cmc api td chunks ContextMode.sliding conc).2 =
      (first, []) :: rest.map (fun c =>
        (c, if (if isHallucination (api first []) then []
              else api first []).isEmpty
            then ([] : List Char)
            else truncateContext cmc
              (if isHallucination (api first []) then []
                else api first []))) := by
  rw [transcribeModel_log, modeRun, hns, runSliding]
  by_cases hr : rest.isEmpty
  · rw [if_pos hr, List.isEmpty_iff.mp hr]
    rfl
  · rw [if_neg hr]
    simp only [runBatch_log]

/-- Witness for `sliding_claim`: a silent chunk then two non-silent
chunks; the two parallel-phase calls share the truncated first
output as context. -/
theorem sliding_claim_witness :
    (transcribeModel 3
        (fun c _ => if c.index = 1 then ("hello".toList) else ("world".toList))
        3 [⟨[], 0, 1000, 0, true⟩, ⟨[], 1000, 2000, 1, false⟩,
          ⟨[], 2000, 3000, 2, false⟩] ContextMode.sliding 2).2 =
      [(⟨[], 1000, 2000, 1, false⟩, []),
        (⟨[], 2000, 3000, 2, false⟩, ("llo".toList))] := by
  have h := sliding_claim 3
    (fun c _ => if c.index = 1 then ("hello".toList) else ("world".toList))
    3 [⟨[], 0, 1000, 0, true⟩, ⟨[], 1000, 2000, 1, false⟩,
      ⟨[], 2000, 3000, 2, false⟩] 2 ⟨[], 1000, 2000, 1, false⟩
    [⟨[], 2000, 3000, 2, false⟩] (by rfl)
  rw [h]
  rfl

/-- Claim C7 (confirmed): in every mode a silent chunk is never passed
to the client, its recorded segment text is the empty string while the
segment still occupies its index slot with the chunk's time range, and a
run whose chunks are all silent yields empty text with
`chunksSkippedSilent = chunks`. -/
theorem silent_skip_claim (cmc : Nat) (api : ChunkM → List Char → List Char)
    (td : ℚ) (chunks : List ChunkM) (mode : ContextMode) (conc : Nat)
    (hnd : (chunks.map ChunkM.index).Nodup) :
    (∀ e ∈ (transcribeModel cmc api td chunks mode conc).2,
      e.1.isSilent = false) ∧
    (∀ (k : Nat) (c : ChunkM), chunks[k]? = some c → c.isSilent = true →
      ((transcribeModel cmc api td chunks mode conc).1.segments[k]?).map
        SegM.text = some []) ∧
    ((transcribeModel cmc api td chunks mode conc).1.segments.map
        (fun s => (s.start, s.endS)) =
      chunks.map (fun c => ((c.startMs : ℚ) / 1000, (c.endMs : ℚ) / 1000))) ∧
    ((∀ c ∈ chunks, c.isSilent = true) →
      (transcribeModel cmc api td chunks mode conc).1.text = [] ∧
      (transcribeModel cmc api td chunks mode conc).1.stats.chunksSkippedSilent =
        (transcribeModel cmc api td chunks mode conc).1.stats.chunks) := by
  refine ⟨?_, ?_, ?_, ?_⟩
  · intro e he
    rw [transcribeModel_log] at he
    have h1 : e.1 ∈ (modeRun cmc api chunks mode).2.map Prod.fst :=
      List.mem_map_of_mem Prod.fst he
    rw [modeRun_log_fst] at h1
    have h2 := (List.mem_filter.mp h1).2
    simpa using h2
  · intro k c hk hsil
    have hemp : chunks.isEmpty = false := by
      cases chunks with
      | nil => simp at hk
      | cons a l => rfl
    rw [transcribeModel_segments cmc api td chunks mode conc hemp,
      List.getElem?_map, hk]
    have hv := modeRun_silent cmc api chunks mode hnd c
      (List.getElem?_mem hk) hsil
    simp [segOf, hv]
  · by_cases hemp : chunks.isEmpty
    · rw [transcribeModel, if_pos hemp, List.isEmpty_iff.mp hemp]
      rfl
    · rw [transcribeModel_segments cmc api td chunks mode conc
        (Bool.not_eq_true _ ▸ hemp), List.map_map]
      rfl
  · intro hall
    have hfe : chunks.filter (fun c => !c.isSilent) = [] := by
      rw [List.filter_eq_nil_iff]
      intro c hc
      simp [hall c hc]
    refine ⟨?_, ?_⟩
    · rw [transcribeModel_text, List.flatten_eq_nil_iff]
      intro l hl
      obtain ⟨seg, hseg, rfl⟩ := List.mem_map.mp hl
      by_cases hemp : chunks.isEmpty
      · rw [transcribeModel, if_pos hemp] at hseg
        simp at hseg
      · rw [transcribeModel_segments cmc api td chunks mode conc
          (Bool.not_eq_true _ ▸ hemp)] at hseg
        obtain ⟨c, hc, rfl⟩ := List.mem_map.mp hseg
        have hv := modeRun_silent cmc api chunks mode hnd c hc (hall c hc)
        simp [segOf, hv]
    · obtain ⟨h1, h2⟩ := transcribeModel_stats cmc api td chunks mode conc
      rw [h1, h2, hfe]
      simp

/-- Witness for `silent_skip_claim`: one silent chunk in sliding mode. -/
theorem silent_skip_claim_witness :
    ((List.map ChunkM.index [⟨[], 0, 1000, 0, true⟩]).Nodup) ∧
    ((∀ e ∈ (transcribeModel 2000 (fun _ _ => ("hi".toList)) 1
        [⟨[], 0, 1000, 0, true⟩] ContextMode.sliding 5).2,
      e.1.isSilent = false) ∧
    (∀ (k : Nat) (c : ChunkM), [(⟨[], 0, 1000, 0, true⟩ : ChunkM)][k]? = some c →
      c.isSilent = true →
      ((transcribeModel 2000 (fun _ _ => ("hi".toList)) 1
          [⟨[], 0, 1000, 0, true⟩] ContextMode.sliding 5).1.segments[k]?).map
        SegM.text = some []) ∧
    ((transcribeModel 2000 (fun _ _ => ("hi".toList)) 1
        [⟨[], 0, 1000, 0, true⟩] ContextMode.sliding 5).1.segments.map
        (fun s => (s.start, s.endS)) =
      [(⟨[], 0, 1000, 0, true⟩ : ChunkM)].map
        (fun c => ((c.startMs : ℚ) / 1000, (c.endMs : ℚ) / 1000))) ∧
    ((∀ c ∈ [(⟨[], 0, 1000, 0, true⟩ : ChunkM)], c.isSilent = true) →
      (transcribeModel 2000 (fun _ _ => ("hi".toList)) 1
        [⟨[], 0, 1000, 0, true⟩] ContextMode.sliding 5).1.text = [] ∧
      (transcribeModel 2000 (fun _ _ => ("hi".toList)) 1
        [⟨[], 0, 1000, 0, true⟩]
        ContextMode.sliding 5).1.stats.chunksSkippedSilent =
        (transcribeModel 2000 (fun _ _ => ("hi".toList)) 1
          [⟨[], 0, 1000, 0, true⟩] ContextMode.sliding 5).1.stats.chunks)) :=
  ⟨by decide,
    silent_skip_claim 2000 (fun _ _ => ("hi".toList)) 1
      [⟨[], 0, 1000, 0, true⟩] ContextMode.sliding 5 (by decide)⟩

/-- Claim C8 (confirmed): the hallucination classifier never flags text
whose trimmed form is empty; and whenever a dispatched call's raw output
is flagged by the classifier, the recorded result for that chunk — and
the segment text at every slot carrying that chunk's index — is the
empty string, in every context mode. -/
theorem hallucination_claim :
    (∀ t : List Char, (jsTrim t).isEmpty = true → isHallucination t = false) ∧
    (∀ (cmc : Nat) (api : ChunkM → List Char → List Char) (td : ℚ)
      (chunks : List ChunkM) (mode : ContextMode) (conc : Nat),
      (chunks.map ChunkM.index).Nodup →
      ∀ e ∈ (transcribeModel cmc api td chunks mode conc).2,
        isHallucination (api e.1 e.2) = true →
          (modeRun cmc api chunks mode).1 e.1.index = some [] ∧
          (∀ (k : Nat) (c : ChunkM), chunks[k]? = some c →
            c.index = e.1.index →
            ((transcribeModel cmc api td chunks mode conc).1.segments[k]?).map
              SegM.text = some [])) := by
  constructor
  · intro t ht
    simp [isHallucination, ht]
  · intro cmc api td chunks mode conc hnd e he hhal
    rw [transcribeModel_log] at he
    have hw := modeRun_written cmc api chunks mode hnd e he
    rw [hhal] at hw
    simp only [if_true] at hw
    refine ⟨hw, ?_⟩
    intro k c hk hidx
    have hemp : chunks.isEmpty = false := by
      cases chunks with
      | nil => simp at hk
      | cons a l => rfl
    rw [transcribeModel_segments cmc api td chunks mode conc hemp,
      List.getElem?_map, hk]
    simp [segOf, hidx, hw]

/-- Witness for `hallucination_claim`: whitespace-only text is not
flagged, and a chunk whose output is "No speech detected" is recorded as
the empty string. -/
theorem hallucination_claim_witness :
    (isHallucination (" ".toList) = false) ∧
    ((modeRun 2000 (fun _ _ => ("No speech detected".toList))
        [⟨[], 0, 1000, 0, false⟩] ContextMode.none).1 0 = some [] ∧
      (∀ (k : Nat) (c : ChunkM),
        [(⟨[], 0, 1000, 0, false⟩ : ChunkM)][k]? = some c → c.index = 0 →
        ((transcribeModel 2000 (fun _ _ => ("No speech detected".toList)) 1
            [⟨[], 0, 1000, 0, false⟩] ContextMode.none 5).1.segments[k]?).map
          SegM.text = some [])) := by
  constructor
  · exact hallucination_claim.1 (" ".toList) (by decide)
  · exact hallucination_claim.2 2000 (fun _ _ => ("No speech detected".toList))
      1 [⟨[], 0, 1000, 0, false⟩] ContextMode.none 5 (by decide)
      (⟨[], 0, 1000, 0, false⟩, []) (by decide) (by decide)

end ASRModel
